import Mathlib

/-!
# Marsaglia multiply-with-carry generator (`mwc.h`)

A shallow embedding of `src/mwc.h`.

* `uint32_t` / `uint64_t` / `unsigned` values are natural numbers; every C
  operation that can wrap is followed by an explicit reduction modulo
  `2^32` / `2^64`.
* The two `uint32_t[MWC_CYCLE]` arrays are vectors of `MWC_CYCLE` natural
  numbers, so their length is fixed by the type as in C.  Every C subscript `a[i]`
  goes through `arr_load` / `arr_store`, which take the raw index as a
  natural number and fail (`none`) when it is outside the array: an
  out-of-bounds access is undefined behaviour in C.
* Structures are passed and returned by value in the C code, so each
  function is a function from its argument to `Option` of its result.
* `MWC_SYSTEM_RAND32` (by default `arc4random`) is external: it is a
  parameter `rand : Nat → Nat`, the stream of `uint32_t` values the
  successive calls return, threaded with the number of calls made so far.
* The `do … while` loop of `mwc_initial_c` need not terminate; it takes a
  fuel argument bounding the number of iterations.
-/

namespace MWC

/-! ## Machine integers -/

/-- The modulus of `uint32_t` arithmetic. -/
def U32_MOD : Nat := 4294967296

/-- The modulus of `uint64_t` arithmetic. -/
def U64_MOD : Nat := 18446744073709551616

/-- The modulus of `unsigned` arithmetic (`unsigned int` is 32 bits wide). -/
def UINT_MOD : Nat := 4294967296

/-- The constant `#define MWC_CYCLE 4096`. -/
def MWC_CYCLE : Nat := 4096

/-- The constant `#define MWC_C_MAX 809430660`. -/
def MWC_C_MAX : Nat := 809430660

/-! ## Arrays and loops -/

/-- The C type `uint32_t[MWC_CYCLE]`. -/
abbrev mwc_array : Type := Mathlib.Vector Nat MWC_CYCLE

/-- The read `a[i]`: defined only for an index inside the array. -/
def arr_load (a : mwc_array) (i : Nat) : Option Nat :=
  if h : i < MWC_CYCLE then some (a.get ⟨i, h⟩) else none

/-- The write `a[i] = v`: defined only for an index inside the array. -/
def arr_store (a : mwc_array) (i : Nat) (v : Nat) : Option mwc_array :=
  if h : i < MWC_CYCLE then some (a.set ⟨i, h⟩ v) else none

/-- The loop `for (size_t i = 0; i < n; i++) body`, on an explicit state;
it fails as soon as an iteration fails. -/
def for_loop {σ : Type} (body : Nat → σ → Option σ) : Nat → σ → Option σ
  | 0, s => some s
  | n + 1, s => (for_loop body n s).bind (body n)

/-! ## The state -/

/-- The C structure `mwc_random_t`. -/
structure mwc_random_t where
  mwc_q : mwc_array
  mwc_carry : Nat
  mwc_current_cycle : Nat
  mwc_initial_carry : Nat
  mwc_initial_q : mwc_array

/-- A state whose fields hold values of their C types: `uint32_t` for the
array slots and the carries, `unsigned` for the cursor. -/
def Representable (s : mwc_random_t) : Prop :=
  (∀ i, s.mwc_q.get i < U32_MOD) ∧ s.mwc_carry < U32_MOD ∧
  s.mwc_current_cycle < UINT_MOD ∧ s.mwc_initial_carry < U32_MOD ∧
  (∀ i, s.mwc_initial_q.get i < U32_MOD)

/-! ## The entropy source -/

/-- One call of `MWC_SYSTEM_RAND32()`: with `pos` calls made before, it
returns the next value of the stream `rand` and the new number of calls. -/
def MWC_SYSTEM_RAND32 (rand : Nat → Nat) (pos : Nat) : Nat × Nat :=
  (rand pos, pos + 1)

/-! ## The four operations -/

/-- The C function `mwc_initial_c`: the loop
`do mwc_initial_carry = MWC_SYSTEM_RAND32(); while (mwc_initial_carry >= MWC_C_MAX);`
run for at most `fuel` iterations.  It returns the carry and the number of
calls of the entropy source made so far. -/
def mwc_initial_c (rand : Nat → Nat) : Nat → Nat → Option (Nat × Nat)
  | 0, _ => none
  | fuel + 1, pos =>
    let (mwc_initial_carry, pos1) := MWC_SYSTEM_RAND32 rand pos
    if mwc_initial_carry ≥ MWC_C_MAX then mwc_initial_c rand fuel pos1
    else some (mwc_initial_carry, pos1)

/-- The body of the loop of `mwc_create`:
`mwc_state.mwc_q[i] = MWC_SYSTEM_RAND32(); mwc_state.mwc_initial_q[i] = mwc_state.mwc_q[i];`
on the pair of the state and the number of entropy calls. -/
def mwc_create_body (rand : Nat → Nat) (i : Nat) (sp : mwc_random_t × Nat) :
    Option (mwc_random_t × Nat) :=
  let (v, pos1) := MWC_SYSTEM_RAND32 rand sp.2
  (arr_store sp.1.mwc_q i v).bind fun q1 =>
  (arr_load q1 i).bind fun w =>
  (arr_store sp.1.mwc_initial_q i w).bind fun iq1 =>
  some ({ sp.1 with mwc_q := q1, mwc_initial_q := iq1 }, pos1)

/-- The C function `mwc_create`, on the entropy stream `rand` read from its
start; `fuel` bounds the iterations of `mwc_initial_c`.  The designated
initialiser zero-fills both arrays.  It returns the state and the number of
entropy calls made. -/
def mwc_create (rand : Nat → Nat) (fuel : Nat) : Option (mwc_random_t × Nat) :=
  (mwc_initial_c rand fuel 0).bind fun cp =>
  let mwc_c := cp.1
  let mwc_state : mwc_random_t :=
    { mwc_q := Mathlib.Vector.replicate MWC_CYCLE 0
      mwc_carry := mwc_c
      mwc_current_cycle := MWC_CYCLE - 1
      mwc_initial_carry := mwc_c
      mwc_initial_q := Mathlib.Vector.replicate MWC_CYCLE 0 }
  for_loop (mwc_create_body rand) MWC_CYCLE (mwc_state, cp.2)

/-- The body of the loop of `mwc_init`: `r.mwc_q[i] = r.mwc_initial_q[i];`. -/
def mwc_init_body (i : Nat) (r : mwc_random_t) : Option mwc_random_t :=
  (arr_load r.mwc_initial_q i).bind fun v =>
  (arr_store r.mwc_q i v).bind fun q1 =>
  some { r with mwc_q := q1 }

/-- The C function `mwc_init`. -/
def mwc_init (r : mwc_random_t) : Option mwc_random_t :=
  let r1 := { r with mwc_carry := r.mwc_initial_carry }
  let r2 := { r1 with mwc_current_cycle := MWC_CYCLE - 1 }
  for_loop mwc_init_body MWC_CYCLE r2

/-- The C function `mwc_read_random`. -/
def mwc_read_random (state : mwc_random_t) : Option Nat :=
  arr_load state.mwc_q state.mwc_current_cycle

/-- Lines 168 to 175 of `mwc_next_random`: from the ring word `q` read at
the new cursor and the current carry, the pair `(x, mwc_carry)` after the
`if (x < state.mwc_carry) { x++; state.mwc_carry++; }` correction. -/
def mwc_multiply_carry (q : Nat) (mwc_carry : Nat) : Nat × Nat :=
  let a : Nat := 18782
  let t := ((a * q) % U64_MOD + mwc_carry) % U64_MOD
  let carry0 := (t >>> 32) % U32_MOD
  let x0 := (t % U32_MOD + carry0) % U32_MOD
  if x0 < carry0 then ((x0 + 1) % U32_MOD, (carry0 + 1) % U32_MOD)
  else (x0, carry0)

/-- The C function `mwc_next_random`. -/
def mwc_next_random (state : mwc_random_t) : Option mwc_random_t :=
  let m : Nat := 0xfffffffe
  let cycle := ((state.mwc_current_cycle + 1) % UINT_MOD) &&& (MWC_CYCLE - 1)
  (arr_load state.mwc_q cycle).bind fun q =>
  let xc := mwc_multiply_carry q state.mwc_carry
  (arr_store state.mwc_q cycle ((m + U32_MOD - xc.1) % U32_MOD)).bind fun q1 =>
  some { state with mwc_q := q1, mwc_carry := xc.2, mwc_current_cycle := cycle }

/-- The state after `n` successive calls `state = mwc_next_random(state)`. -/
def mwc_next_random_n : Nat → mwc_random_t → Option mwc_random_t
  | 0, s => some s
  | n + 1, s => (mwc_next_random_n n s).bind mwc_next_random

/-! ## The reference step of the specification -/

/-- The cursor after one advance, `(cursor + 1) mod 4096`, as an index of
the ring. -/
def next_cycle (s : mwc_random_t) : Fin MWC_CYCLE :=
  ⟨(s.mwc_current_cycle + 1) % MWC_CYCLE, Nat.mod_lt _ (by decide)⟩

/-- The advance step as the specification words it, on exact (unbounded)
integers: `t = 18782 * ring[c1] + carry`, `hi = t >> 32`, `lo = t mod 2^32`,
`x0 = (lo + hi) mod 2^32`, the correction when `x0 < hi`, and the slot
`ring[c1] = (0xFFFFFFFE - x) mod 2^32`. -/
def mwc_next_random_reference (s : mwc_random_t) : mwc_random_t :=
  let c1 := next_cycle s
  let t := 18782 * s.mwc_q.get c1 + s.mwc_carry
  let hi := t >>> 32
  let lo := t % 2 ^ 32
  let x0 := (lo + hi) % 2 ^ 32
  let x := if x0 < hi then x0 + 1 else x0
  let carry1 := if x0 < hi then hi + 1 else hi
  { s with
    mwc_q := s.mwc_q.set c1 ((((0xFFFFFFFE : Int) - (x : Int)) % 2 ^ 32).toNat)
    mwc_carry := carry1
    mwc_current_cycle := c1.val }

/-! ## Reachable states and sample inputs -/

/-- The states a program can hold when it uses the generator as its header
describes, on the entropy stream `rand`: what `mwc_create` returns, closed
under `mwc_init` and `mwc_next_random`. -/
inductive Reachable (rand : Nat → Nat) : mwc_random_t → Prop
  | create (fuel : Nat) (s : mwc_random_t) (p : Nat) :
      mwc_create rand fuel = some (s, p) → Reachable rand s
  | init (s t : mwc_random_t) :
      Reachable rand s → mwc_init s = some t → Reachable rand t
  | next (s t : mwc_random_t) :
      Reachable rand s → mwc_next_random s = some t → Reachable rand t

/-- A sample state: every ring and snapshot word is `0xFFFFFFFF`, the carry
is 100 and the cursor is at the last slot. -/
def sample_state : mwc_random_t :=
  { mwc_q := Mathlib.Vector.replicate MWC_CYCLE 4294967295
    mwc_carry := 100
    mwc_current_cycle := 4095
    mwc_initial_carry := 100
    mwc_initial_q := Mathlib.Vector.replicate MWC_CYCLE 4294967295 }

/-- A sample entropy stream: the first two draws are rejected
(`>= MWC_C_MAX`), the third is 7 and is accepted, and every later draw is
its own position in the stream. -/
def sample_rand : Nat → Nat :=
  fun i => if i = 0 then 4000000000 else if i = 1 then 809430660
    else if i = 2 then 7 else i

/-- The state `mwc_create` builds from `sample_rand`. -/
def sample_created : mwc_random_t :=
  { mwc_q := Mathlib.Vector.ofFn fun j => sample_rand (3 + j.val)
    mwc_carry := 7
    mwc_current_cycle := 4095
    mwc_initial_carry := 7
    mwc_initial_q := Mathlib.Vector.ofFn fun j => sample_rand (3 + j.val) }

/-- The entropy stream whose every draw is 0. -/
def zero_rand : Nat → Nat := fun _ => 0

/-- A representable state whose cursor is outside the ring: the largest
`unsigned` value. -/
def max_cursor_state : mwc_random_t :=
  { sample_state with mwc_current_cycle := 4294967295 }

/-- The number of draws at the positions below `n` of the stream that are
`>= MWC_C_MAX`, the draws the loop of `mwc_initial_c` rejects as carry. -/
def rejected_draws (rand : Nat → Nat) (n : Nat) : Nat :=
  (List.range n).countP fun i => decide (MWC_C_MAX ≤ rand i)

/-- Lines 168 to 171 of `mwc_next_random`: the pair `(x, mwc_carry)` as it
stands when the test `x < state.mwc_carry` of line 172 is evaluated, before
the correction. -/
def mwc_uncorrected (q : Nat) (mwc_carry : Nat) : Nat × Nat :=
  let a : Nat := 18782
  let t := ((a * q) % U64_MOD + mwc_carry) % U64_MOD
  let carry0 := (t >>> 32) % U32_MOD
  let x0 := (t % U32_MOD + carry0) % U32_MOD
  (x0, carry0)

/-- The state of the concrete scenario with every ring word equal to 1:
carry 100 and cursor 4095. -/
def ones_state : mwc_random_t :=
  { sample_state with mwc_q := Mathlib.Vector.replicate MWC_CYCLE 1 }

/-- The state `sample_state` with another retained snapshot: same ring,
carry and cursor, snapshot words 0 and snapshot carry 5. -/
def resnapshot_state : mwc_random_t :=
  { sample_state with
    mwc_initial_carry := 5
    mwc_initial_q := Mathlib.Vector.replicate MWC_CYCLE 0 }

/-- An entropy stream whose first draw is 0 and whose other draws are all
`0xFFFFFFFF`. -/
def edge_rand : Nat → Nat := fun i => if i = 0 then 0 else 4294967295

/-- The state `mwc_create` builds from `edge_rand`: carry 0 and every ring
word `0xFFFFFFFF`. -/
def edge_state : mwc_random_t :=
  { mwc_q := Mathlib.Vector.ofFn fun j => edge_rand (1 + j.val)
    mwc_carry := 0
    mwc_current_cycle := 4095
    mwc_initial_carry := 0
    mwc_initial_q := Mathlib.Vector.ofFn fun j => edge_rand (1 + j.val) }

/-! ## Arrays, loops and the cursor mask -/

theorem arr_load_fin (a : mwc_array) (i : Fin MWC_CYCLE) :
    arr_load a i.val = some (a.get i) := by
  simp [arr_load, i.isLt]

theorem arr_store_fin (a : mwc_array) (i : Fin MWC_CYCLE) (v : Nat) :
    arr_store a i.val v = some (a.set i v) := by
  simp [arr_store, i.isLt]

theorem arr_load_of_lt (a : mwc_array) (i : Nat) (h : i < MWC_CYCLE) :
    arr_load a i = some (a.get ⟨i, h⟩) := by
  simp [arr_load, h]

theorem arr_store_of_lt (a : mwc_array) (i : Nat) (v : Nat) (h : i < MWC_CYCLE) :
    arr_store a i v = some (a.set ⟨i, h⟩ v) := by
  simp [arr_store, h]

/-- Writing slot `k` of an array whose slots below `k` hold `f` and whose
others hold `g`, with the value `f k`, gives the array whose slots below
`k + 1` hold `f`. -/
theorem set_ofFn_below (f g : Fin MWC_CYCLE → Nat) (k : Nat) (hk : k < MWC_CYCLE) :
    (Mathlib.Vector.ofFn fun j : Fin MWC_CYCLE => if j.val < k then f j else g j).set
        ⟨k, hk⟩ (f ⟨k, hk⟩)
      = Mathlib.Vector.ofFn fun j => if j.val < k + 1 then f j else g j := by
  apply Mathlib.Vector.ext
  intro j
  rw [Mathlib.Vector.get_set_eq_if, Mathlib.Vector.get_ofFn, Mathlib.Vector.get_ofFn]
  by_cases hj : (⟨k, hk⟩ : Fin MWC_CYCLE) = j
  · subst hj
    simp
  · have hne : j.val ≠ k := fun e => hj (Fin.ext e.symm)
    rw [if_neg hj]
    by_cases hlt : j.val < k
    · have : j.val < k + 1 := by omega
      simp [hlt, this]
    · have : ¬ j.val < k + 1 := by omega
      simp [hlt, this]

/-- The mask `& (MWC_CYCLE - 1)` after the wrapping `unsigned` increment is
the remainder modulo `MWC_CYCLE`, for every cursor value. -/
theorem cycle_mask (c : Nat) :
    ((c + 1) % UINT_MOD) &&& (MWC_CYCLE - 1) = (c + 1) % MWC_CYCLE := by
  have h1 : MWC_CYCLE - 1 = 2 ^ 12 - 1 := by decide
  have h2 : MWC_CYCLE = 2 ^ 12 := by decide
  have h3 : (2 : Nat) ^ 12 ∣ UINT_MOD := ⟨2 ^ 20, by decide⟩
  rw [h1, Nat.and_pow_two_sub_one_eq_mod, h2, Nat.mod_mod_of_dvd _ h3]

/-! ## The advance step in closed form -/

/-- The advance step never fails, and its result is the input with the slot
at the new cursor, the carry and the cursor replaced. -/
theorem mwc_next_random_eq (s : mwc_random_t) :
    mwc_next_random s = some
      { s with
        mwc_q := s.mwc_q.set (next_cycle s)
          ((0xfffffffe + U32_MOD -
            (mwc_multiply_carry (s.mwc_q.get (next_cycle s)) s.mwc_carry).1) % U32_MOD)
        mwc_carry := (mwc_multiply_carry (s.mwc_q.get (next_cycle s)) s.mwc_carry).2
        mwc_current_cycle := (next_cycle s).val } := by
  have hc : ((s.mwc_current_cycle + 1) % UINT_MOD) &&& (MWC_CYCLE - 1)
      = (next_cycle s).val := cycle_mask _
  unfold mwc_next_random
  simp only [hc, arr_load_fin, arr_store_fin, Option.some_bind]

/-- On 32-bit operands no intermediate of lines 168 to 175 wraps: the pair
computed by the code is the one computed on exact integers. -/
theorem mwc_multiply_carry_exact (q c : Nat) (hq : q < U32_MOD) (hc : c < U32_MOD) :
    mwc_multiply_carry q c =
      (if ((18782 * q + c) % 2 ^ 32 + (18782 * q + c) / 2 ^ 32) % 2 ^ 32
            < (18782 * q + c) / 2 ^ 32
        then (((18782 * q + c) % 2 ^ 32 + (18782 * q + c) / 2 ^ 32) % 2 ^ 32 + 1,
              (18782 * q + c) / 2 ^ 32 + 1)
        else (((18782 * q + c) % 2 ^ 32 + (18782 * q + c) / 2 ^ 32) % 2 ^ 32,
              (18782 * q + c) / 2 ^ 32)) := by
  unfold mwc_multiply_carry
  simp only [U32_MOD, U64_MOD, Nat.shiftRight_eq_div_pow] at *
  have e1 : (18782 * q % 18446744073709551616 + c) % 18446744073709551616
      = 18782 * q + c := by omega
  have e2 : (2 : Nat) ^ 32 = 4294967296 := by norm_num
  rw [e1, e2]
  have e3 : (18782 * q + c) / 4294967296 % 4294967296 = (18782 * q + c) / 4294967296 := by
    omega
  rw [e3]
  split_ifs with h
  · have h1 : (18782 * q + c) / 4294967296 ≤ 18782 := by omega
    refine Prod.ext ?_ ?_ <;> simp only <;> omega
  · rfl

/-- The value stored in the ring, `m - x` in wrapping 32-bit arithmetic, is
the integer difference reduced modulo `2^32`. -/
theorem wrapping_sub_eq (x : Nat) (hx : x < U32_MOD) :
    (0xfffffffe + U32_MOD - x) % U32_MOD
      = (((0xFFFFFFFE : Int) - (x : Int)) % 2 ^ 32).toNat := by
  simp only [U32_MOD] at *
  norm_num
  omega

/-! ## The reset in closed form -/

/-- After `n` iterations the copy loop of `mwc_init` has overwritten the
slots below `n` with the snapshot and left the others alone. -/
theorem mwc_init_loop_eq (r : mwc_random_t) (n : Nat) (hn : n ≤ MWC_CYCLE) :
    for_loop mwc_init_body n r = some
      { r with mwc_q := Mathlib.Vector.ofFn fun j =>
          if j.val < n then r.mwc_initial_q.get j else r.mwc_q.get j } := by
  induction n with
  | zero => simp [for_loop, Mathlib.Vector.ofFn_get]
  | succ k ih =>
    have hk : k < MWC_CYCLE := hn
    rw [for_loop, ih (Nat.le_of_lt hk)]
    simp only [Option.some_bind, mwc_init_body, arr_load_of_lt _ _ hk,
      arr_store_of_lt _ _ _ hk, set_ofFn_below]

/-- The reset never fails; it returns the snapshot as ring and carry, the
cursor `MWC_CYCLE - 1`, and the snapshot itself unchanged. -/
theorem mwc_init_eq (r : mwc_random_t) :
    mwc_init r = some
      { mwc_q := r.mwc_initial_q
        mwc_carry := r.mwc_initial_carry
        mwc_current_cycle := MWC_CYCLE - 1
        mwc_initial_carry := r.mwc_initial_carry
        mwc_initial_q := r.mwc_initial_q } := by
  unfold mwc_init
  rw [mwc_init_loop_eq _ _ (Nat.le_refl _)]
  simp only [Fin.is_lt, if_true, Mathlib.Vector.ofFn_get]

/-! ## Construction in closed form -/

/-- What `mwc_initial_c` returns, when it returns: the first draw below
`MWC_C_MAX` from position `pos` on, every earlier draw having been rejected,
and the position just after that draw. -/
theorem mwc_initial_c_some (rand : Nat → Nat) (fuel pos c p : Nat)
    (h : mwc_initial_c rand fuel pos = some (c, p)) :
    ∃ j, j < fuel ∧ p = pos + j + 1 ∧ c = rand (pos + j) ∧ c < MWC_C_MAX ∧
      ∀ i, i < j → MWC_C_MAX ≤ rand (pos + i) := by
  induction fuel generalizing pos with
  | zero => simp [mwc_initial_c] at h
  | succ k ih =>
    simp only [mwc_initial_c, MWC_SYSTEM_RAND32] at h
    by_cases hge : rand pos ≥ MWC_C_MAX
    · rw [if_pos hge] at h
      obtain ⟨j, hj, hp, hc, hlt, hrej⟩ := ih (pos + 1) h
      refine ⟨j + 1, by omega, by omega, ?_, hlt, ?_⟩
      · rw [hc]; congr 1; omega
      · intro i hi
        cases i with
        | zero => exact hge
        | succ i =>
          have := hrej i (by omega)
          have e : pos + (i + 1) = pos + 1 + i := by omega
          rw [e]; exact this
    · rw [if_neg hge] at h
      simp only [Option.some.injEq, Prod.mk.injEq] at h
      refine ⟨0, by omega, by omega, by simp [h.1], by omega, ?_⟩
      intro i hi
      omega

/-- With enough fuel `mwc_initial_c` returns: if the draw at `pos + j` is
below `MWC_C_MAX` and the `j` draws before it are not, any fuel above `j`
yields that draw. -/
theorem mwc_initial_c_of_first (rand : Nat → Nat) (j fuel pos : Nat) (hf : j < fuel)
    (hlt : rand (pos + j) < MWC_C_MAX)
    (hrej : ∀ i, i < j → MWC_C_MAX ≤ rand (pos + i)) :
    mwc_initial_c rand fuel pos = some (rand (pos + j), pos + j + 1) := by
  induction j generalizing fuel pos with
  | zero =>
    obtain ⟨k, rfl⟩ : ∃ k, fuel = k + 1 := ⟨fuel - 1, by omega⟩
    have hlt1 : ¬ rand pos ≥ MWC_C_MAX := by
      have := hlt
      simp only [Nat.add_zero] at this
      omega
    simp [mwc_initial_c, MWC_SYSTEM_RAND32, hlt1]
  | succ n ih =>
    obtain ⟨k, rfl⟩ : ∃ k, fuel = k + 1 := ⟨fuel - 1, by omega⟩
    have h0 : rand pos ≥ MWC_C_MAX := hrej 0 (by omega)
    have e : pos + (n + 1) = pos + 1 + n := by omega
    simp only [mwc_initial_c, MWC_SYSTEM_RAND32, if_pos h0]
    rw [ih k (pos + 1) (by omega) (by rw [← e]; exact hlt) ?_]
    · rw [e]
    · intro i hi
      have := hrej (i + 1) (by omega)
      have e1 : pos + (i + 1) = pos + 1 + i := by omega
      rw [← e1]; exact this

/-- After `n` iterations the fill loop of `mwc_create` has written the next
`n` draws into the slots below `n` of both arrays. -/
theorem mwc_create_loop_eq (rand : Nat → Nat) (s : mwc_random_t) (p n : Nat)
    (hn : n ≤ MWC_CYCLE) :
    for_loop (mwc_create_body rand) n (s, p) = some
      ({ s with
          mwc_q := Mathlib.Vector.ofFn fun j =>
            if j.val < n then rand (p + j.val) else s.mwc_q.get j
          mwc_initial_q := Mathlib.Vector.ofFn fun j =>
            if j.val < n then rand (p + j.val) else s.mwc_initial_q.get j },
        p + n) := by
  induction n with
  | zero => simp [for_loop, Mathlib.Vector.ofFn_get]
  | succ k ih =>
    have hk : k < MWC_CYCLE := hn
    rw [for_loop, ih (Nat.le_of_lt hk)]
    simp only [Option.some_bind, mwc_create_body, MWC_SYSTEM_RAND32,
      arr_load_of_lt _ _ hk, arr_store_of_lt _ _ _ hk, Mathlib.Vector.get_set_same]
    have key := fun g => set_ofFn_below (fun j => rand (p + j.val)) g k hk
    simp only at key
    simp only [key]
    rfl

/-- Construction in closed form: `mwc_create` returns exactly when
`mwc_initial_c` does, and then the carry and its snapshot are the accepted
draw, the ring and its snapshot are the next `MWC_CYCLE` draws in index
order, and the cursor is `MWC_CYCLE - 1`. -/
theorem mwc_create_eq (rand : Nat → Nat) (fuel : Nat) :
    mwc_create rand fuel = (mwc_initial_c rand fuel 0).map fun cp =>
      ({ mwc_q := Mathlib.Vector.ofFn fun j => rand (cp.2 + j.val)
         mwc_carry := cp.1
         mwc_current_cycle := MWC_CYCLE - 1
         mwc_initial_carry := cp.1
         mwc_initial_q := Mathlib.Vector.ofFn fun j => rand (cp.2 + j.val) },
        cp.2 + MWC_CYCLE) := by
  unfold mwc_create
  cases mwc_initial_c rand fuel 0 with
  | none => rfl
  | some cp =>
    simp only [Option.some_bind, Option.map_some']
    rw [mwc_create_loop_eq _ _ _ _ (Nat.le_refl _)]
    simp only [Fin.is_lt, if_true]

/-! ## Iterated advances -/

/-- One advance leaves the snapshot alone and puts the cursor inside the
ring. -/
theorem mwc_next_random_frame (s : mwc_random_t) :
    ∃ t, mwc_next_random s = some t ∧
      t.mwc_initial_q = s.mwc_initial_q ∧
      t.mwc_initial_carry = s.mwc_initial_carry ∧
      t.mwc_current_cycle = (s.mwc_current_cycle + 1) % MWC_CYCLE ∧
      t.mwc_current_cycle < MWC_CYCLE :=
  ⟨_, mwc_next_random_eq s, rfl, rfl, rfl, (next_cycle s).isLt⟩

/-- Any number of advances returns, leaves the snapshot alone, and keeps a
cursor that was inside the ring inside it. -/
theorem mwc_next_random_n_frame (n : Nat) (s : mwc_random_t) :
    ∃ t, mwc_next_random_n n s = some t ∧
      t.mwc_initial_q = s.mwc_initial_q ∧
      t.mwc_initial_carry = s.mwc_initial_carry ∧
      (s.mwc_current_cycle < MWC_CYCLE → t.mwc_current_cycle < MWC_CYCLE) := by
  induction n with
  | zero => exact ⟨s, rfl, rfl, rfl, id⟩
  | succ k ih =>
    obtain ⟨t, ht, hq, hc, -⟩ := ih
    obtain ⟨u, hu, huq, huc, -, hlt⟩ := mwc_next_random_frame t
    refine ⟨u, ?_, huq.trans hq, huc.trans hc, fun _ => hlt⟩
    simp [mwc_next_random_n, ht, hu]

/-- What `mwc_create` returns has its cursor at the last slot, its ring
equal to its snapshot, and its carry equal to its snapshot and below
`MWC_C_MAX`. -/
theorem mwc_create_post (rand : Nat → Nat) (fuel : Nat) (s : mwc_random_t) (p : Nat)
    (h : mwc_create rand fuel = some (s, p)) :
    s.mwc_current_cycle = MWC_CYCLE - 1 ∧ s.mwc_q = s.mwc_initial_q ∧
      s.mwc_carry = s.mwc_initial_carry ∧ s.mwc_carry < MWC_C_MAX := by
  rw [mwc_create_eq] at h
  cases hc : mwc_initial_c rand fuel 0 with
  | none => simp [hc] at h
  | some cp =>
    obtain ⟨c, p0⟩ := cp
    obtain ⟨j, -, -, -, hlt, -⟩ := mwc_initial_c_some rand fuel 0 c p0 hc
    simp only [hc, Option.map_some', Option.some.injEq, Prod.mk.injEq] at h
    obtain ⟨rfl, -⟩ := h
    exact ⟨rfl, rfl, rfl, hlt⟩

/-- The draws of `sample_rand`: `mwc_create` returns `sample_created` after
`3 + 4096` calls of the entropy source, for any fuel of at least 3. -/
theorem mwc_create_sample (fuel : Nat) (hf : 2 < fuel) :
    mwc_create sample_rand fuel = some (sample_created, 4099) := by
  have h := mwc_initial_c_of_first sample_rand 2 fuel 0 hf (by decide)
    (by intro i hi; interval_cases i <;> decide)
  rw [mwc_create_eq, h]
  rfl

/-! ## C1: the advance step refines the reference step -/

/-- C1: for every representable state `s`, `mwc_next_random s` returns, and
what it returns is the reference step of the specification: cursor
`(cursor + 1) mod 4096`, the carry and `x` of the exact computation
`t = 18782 * ring[c1] + carry` with the correction when `x0 < hi`, and the
slot at the new cursor set to `(0xFFFFFFFE - x) mod 2^32`. -/
theorem mwc_next_random_refines_reference (s : mwc_random_t) (h : Representable s) :
    mwc_next_random s = some (mwc_next_random_reference s) := by
  obtain ⟨hq, hc, -, -, -⟩ := h
  have hq1 := hq (next_cycle s)
  rw [mwc_next_random_eq, mwc_multiply_carry_exact _ _ hq1 hc]
  unfold mwc_next_random_reference
  simp only [U32_MOD] at hq1 hc
  have e2 : (2 : Nat) ^ 32 = 4294967296 := by norm_num
  simp only [Nat.shiftRight_eq_div_pow, e2]
  split_ifs with hlt
  · have hx : ((18782 * s.mwc_q.get (next_cycle s) + s.mwc_carry) % 4294967296
        + (18782 * s.mwc_q.get (next_cycle s) + s.mwc_carry) / 4294967296) % 4294967296 + 1
        < U32_MOD := by
      simp only [U32_MOD]; omega
    simp only [wrapping_sub_eq _ hx]
  · have hx : ((18782 * s.mwc_q.get (next_cycle s) + s.mwc_carry) % 4294967296
        + (18782 * s.mwc_q.get (next_cycle s) + s.mwc_carry) / 4294967296) % 4294967296
        < U32_MOD := by
      simp only [U32_MOD]; omega
    simp only [wrapping_sub_eq _ hx]

theorem sample_state_representable : Representable sample_state := by
  refine ⟨fun _ => ?_, ?_, ?_, ?_, fun _ => ?_⟩ <;>
    simp [sample_state, U32_MOD, UINT_MOD, Mathlib.Vector.get_replicate]

/-- C1 at `sample_state` (all words `0xFFFFFFFF`, carry 100, cursor 4095). -/
theorem mwc_next_random_refines_reference_witness :
    Representable sample_state ∧
      mwc_next_random sample_state = some (mwc_next_random_reference sample_state) :=
  ⟨sample_state_representable,
    mwc_next_random_refines_reference sample_state sample_state_representable⟩

/-! ## C2: reset fidelity -/

/-- The read at a cursor inside the ring returns the slot under it. -/
theorem mwc_read_random_of_lt (s : mwc_random_t) (h : s.mwc_current_cycle < MWC_CYCLE) :
    mwc_read_random s = some (s.mwc_q.get ⟨s.mwc_current_cycle, h⟩) :=
  arr_load_of_lt _ _ h

/-- C2: whenever `mwc_create` returns a state `s0`, any number `n` of
advances from `s0` returns a state whose reset is `s0` itself, field for
field; the read of that reset is the read of `s0` (which is defined); and
the reset of `s0` is `s0`. -/
theorem reset_fidelity (rand : Nat → Nat) (fuel : Nat) (s0 : mwc_random_t) (p : Nat)
    (h : mwc_create rand fuel = some (s0, p)) (n : Nat) :
    ∃ sn, mwc_next_random_n n s0 = some sn ∧ mwc_init sn = some s0 ∧
      (mwc_init sn).bind mwc_read_random = mwc_read_random s0 ∧
      (∃ v, mwc_read_random s0 = some v) ∧
      mwc_init s0 = some s0 := by
  obtain ⟨hcur, hq, hc, -⟩ := mwc_create_post rand fuel s0 p h
  obtain ⟨sn, hsn, hiq, hic, -⟩ := mwc_next_random_n_frame n s0
  have hreset : ∀ t : mwc_random_t, t.mwc_initial_q = s0.mwc_initial_q →
      t.mwc_initial_carry = s0.mwc_initial_carry → mwc_init t = some s0 := by
    intro t h1 h2
    rw [mwc_init_eq, h1, h2]
    cases s0
    simp only at hcur hq hc
    simp [hcur, hq, hc]
  have hlt : s0.mwc_current_cycle < MWC_CYCLE := by rw [hcur]; decide
  refine ⟨sn, hsn, hreset sn hiq hic, ?_, ⟨_, mwc_read_random_of_lt s0 hlt⟩,
    hreset s0 rfl rfl⟩
  rw [hreset sn hiq hic, Option.some_bind]

/-- C2 on the stream `sample_rand`, after 5 advances. -/
theorem reset_fidelity_witness :
    mwc_create sample_rand 3 = some (sample_created, 4099) ∧
    ∃ sn, mwc_next_random_n 5 sample_created = some sn ∧
      mwc_init sn = some sample_created ∧
      (mwc_init sn).bind mwc_read_random = mwc_read_random sample_created ∧
      (∃ v, mwc_read_random sample_created = some v) ∧
      mwc_init sample_created = some sample_created :=
  ⟨mwc_create_sample 3 (by decide),
    reset_fidelity sample_rand 3 sample_created 4099 (mwc_create_sample 3 (by decide)) 5⟩

/-! ## C3: the postcondition of reset -/

/-- C3: for every state `s`, `mwc_init s` returns a state whose ring is the
snapshot of `s` at every index, whose carry is the snapshot carry, whose
cursor is 4095 (`MWC_CYCLE - 1`), and whose snapshot is that of `s`. -/
theorem mwc_init_post (s : mwc_random_t) :
    ∃ t, mwc_init s = some t ∧
      (∀ i : Fin MWC_CYCLE, t.mwc_q.get i = s.mwc_initial_q.get i) ∧
      t.mwc_carry = s.mwc_initial_carry ∧
      t.mwc_current_cycle = 4095 ∧ t.mwc_current_cycle = MWC_CYCLE - 1 ∧
      t.mwc_initial_q = s.mwc_initial_q ∧
      t.mwc_initial_carry = s.mwc_initial_carry :=
  ⟨_, mwc_init_eq s, fun _ => rfl, rfl, rfl, rfl, rfl, rfl⟩

/-! ## C4: the read -/

/-- C4: for every state whose cursor is inside the ring, `mwc_read_random`
returns the slot under the cursor; it is a function of the state passed by
value, so any number of reads of the same state return that same value; and
the read of the state returned by `mwc_next_random` is the value that
advance stored. -/
theorem mwc_read_random_spec (s : mwc_random_t) (h : s.mwc_current_cycle < MWC_CYCLE) :
    mwc_read_random s = some (s.mwc_q.get ⟨s.mwc_current_cycle, h⟩) ∧
    (∀ k : Nat, (List.replicate k s).map mwc_read_random
        = List.replicate k (some (s.mwc_q.get ⟨s.mwc_current_cycle, h⟩))) ∧
    ∃ t, mwc_next_random s = some t ∧
      mwc_read_random t = some ((0xfffffffe + U32_MOD -
        (mwc_multiply_carry (s.mwc_q.get (next_cycle s)) s.mwc_carry).1) % U32_MOD) := by
  refine ⟨mwc_read_random_of_lt s h, ?_, _, mwc_next_random_eq s, ?_⟩
  · intro k
    rw [List.map_replicate, mwc_read_random_of_lt s h]
  · simp only [mwc_read_random, arr_load_fin, Mathlib.Vector.get_set_same]

/-- C4 at `sample_state`, whose cursor is 4095. -/
theorem mwc_read_random_spec_witness :
    sample_state.mwc_current_cycle < MWC_CYCLE ∧
    mwc_read_random sample_state = some 4294967295 ∧
    ∃ t, mwc_next_random sample_state = some t ∧
      mwc_read_random t = some ((0xfffffffe + U32_MOD -
        (mwc_multiply_carry (sample_state.mwc_q.get (next_cycle sample_state))
          sample_state.mwc_carry).1) % U32_MOD) :=
  ⟨by decide,
    (mwc_read_random_spec sample_state (by decide)).1.trans
      (congrArg some (Mathlib.Vector.get_replicate _ _)),
    (mwc_read_random_spec sample_state (by decide)).2.2⟩

/-! ## C5: the frame of the advance -/

/-- C5: for every state `s`, `mwc_next_random s` returns a state whose ring
agrees with that of `s` at every index other than `(cursor + 1) mod 4096`,
and whose snapshot ring and snapshot carry are those of `s`. -/
theorem mwc_next_random_frame_ring (s : mwc_random_t) :
    ∃ t, mwc_next_random s = some t ∧
      (∀ i : Fin MWC_CYCLE, i.val ≠ (s.mwc_current_cycle + 1) % 4096 →
        t.mwc_q.get i = s.mwc_q.get i) ∧
      t.mwc_initial_q = s.mwc_initial_q ∧
      t.mwc_initial_carry = s.mwc_initial_carry := by
  refine ⟨_, mwc_next_random_eq s, ?_, rfl, rfl⟩
  intro i hi
  have hne : next_cycle s ≠ i := fun e => hi (by rw [← e]; rfl)
  simp only [Mathlib.Vector.get_set_of_ne hne]

/-! ## C6: the postcondition of construction -/

/-- C6: if the entropy stream has a draw below `MWC_C_MAX`, at position `j`
say, then `mwc_create` returns (with the same result for every fuel above
`j`) a state whose carry equals its snapshot carry and is below `MWC_C_MAX`,
whose cursor is 4095, and whose ring equals its snapshot ring at every
index. -/
theorem mwc_create_spec (rand : Nat → Nat) (j : Nat) (h : rand j < MWC_C_MAX) :
    ∃ s p, (∀ fuel, j < fuel → mwc_create rand fuel = some (s, p)) ∧
      s.mwc_carry = s.mwc_initial_carry ∧ s.mwc_carry < MWC_C_MAX ∧
      s.mwc_current_cycle = 4095 ∧
      ∀ i : Fin MWC_CYCLE, s.mwc_q.get i = s.mwc_initial_q.get i := by
  have hex : ∃ k, rand k < MWC_C_MAX := ⟨j, h⟩
  have hfirst : rand (0 + Nat.find hex) < MWC_C_MAX := by
    rw [Nat.zero_add]; exact Nat.find_spec hex
  have hrej : ∀ i, i < Nat.find hex → MWC_C_MAX ≤ rand (0 + i) := by
    intro i hi
    rw [Nat.zero_add]
    exact Nat.le_of_not_lt (Nat.find_min hex hi)
  have hle : Nat.find hex ≤ j := Nat.find_min' hex h
  have hc : ∀ fuel, j < fuel →
      mwc_initial_c rand fuel 0 = some (rand (0 + Nat.find hex), 0 + Nat.find hex + 1) :=
    fun fuel hf => mwc_initial_c_of_first rand _ fuel 0 (by omega) hfirst hrej
  refine ⟨{ mwc_q := Mathlib.Vector.ofFn fun i => rand (0 + Nat.find hex + 1 + i.val)
            mwc_carry := rand (0 + Nat.find hex)
            mwc_current_cycle := MWC_CYCLE - 1
            mwc_initial_carry := rand (0 + Nat.find hex)
            mwc_initial_q := Mathlib.Vector.ofFn fun i =>
              rand (0 + Nat.find hex + 1 + i.val) },
    0 + Nat.find hex + 1 + MWC_CYCLE, fun fuel hf => ?_, rfl, hfirst, rfl, fun _ => rfl⟩
  rw [mwc_create_eq, hc fuel hf]
  rfl

/-- C6 on the stream `sample_rand`, whose draw at position 2 is 7. -/
theorem mwc_create_spec_witness :
    sample_rand 2 < MWC_C_MAX ∧
    ∃ s p, (∀ fuel, 2 < fuel → mwc_create sample_rand fuel = some (s, p)) ∧
      s.mwc_carry = s.mwc_initial_carry ∧ s.mwc_carry < MWC_C_MAX ∧
      s.mwc_current_cycle = 4095 ∧
      ∀ i : Fin MWC_CYCLE, s.mwc_q.get i = s.mwc_initial_q.get i :=
  ⟨by decide, mwc_create_spec sample_rand 2 (by decide)⟩

/-! ## C7: replay after reset -/

/-- C7: for every state `s` and all `m`, `n`, the reset of the state after
`m` advances is the reset of `s`; hence the value read after `n` advances
from either reset is the same, and that value is defined. -/
theorem reset_replay (s : mwc_random_t) (m n : Nat) :
    (mwc_next_random_n m s).bind mwc_init = mwc_init s ∧
    (((mwc_next_random_n m s).bind mwc_init).bind (mwc_next_random_n n)).bind mwc_read_random
      = ((mwc_init s).bind (mwc_next_random_n n)).bind mwc_read_random ∧
    ∃ v, ((mwc_init s).bind (mwc_next_random_n n)).bind mwc_read_random = some v := by
  obtain ⟨sm, hsm, hiq, hic, -⟩ := mwc_next_random_n_frame m s
  have h1 : (mwc_next_random_n m s).bind mwc_init = mwc_init s := by
    rw [hsm, Option.some_bind, mwc_init_eq, mwc_init_eq, hiq, hic]
  refine ⟨h1, by rw [h1], ?_⟩
  obtain ⟨r, hr, -, -, hcur, -⟩ := mwc_init_post s
  obtain ⟨rn, hrn, -, -, hlt⟩ := mwc_next_random_n_frame n r
  have hlt1 : rn.mwc_current_cycle < MWC_CYCLE := hlt (by rw [hcur]; decide)
  exact ⟨_, by rw [hr, Option.some_bind, hrn, Option.some_bind,
    mwc_read_random_of_lt rn hlt1]⟩

/-! ## C8: reset is idempotent -/

/-- C8: for every state `s`, `mwc_init s` returns, and resetting its result
again returns that same state, equal in all fields. -/
theorem mwc_init_idempotent (s : mwc_random_t) :
    (∃ t, mwc_init s = some t) ∧ (mwc_init s).bind mwc_init = mwc_init s := by
  refine ⟨⟨_, mwc_init_eq s⟩, ?_⟩
  rw [mwc_init_eq s, Option.some_bind, mwc_init_eq]

/-! ## C9: the cursor stays inside the ring -/

/-- C9: `mwc_create` and `mwc_init` return cursor 4095; for every state,
whatever its cursor, the index `(cursor + 1) & (MWC_CYCLE - 1)` at which
`mwc_next_random` reads and writes the ring is below 4096, the call returns
(no access falls outside the ring) and the returned cursor is that index;
so every state reachable from `mwc_create` through `mwc_init` and
`mwc_next_random` has its cursor below 4096, and `mwc_read_random` on it
reads inside the ring. -/
theorem cursor_in_range (rand : Nat → Nat) :
    (∀ fuel s p, mwc_create rand fuel = some (s, p) → s.mwc_current_cycle = 4095) ∧
    (∀ s, ∃ t, mwc_init s = some t ∧ t.mwc_current_cycle = 4095) ∧
    (∀ s : mwc_random_t,
      ((s.mwc_current_cycle + 1) % UINT_MOD) &&& (MWC_CYCLE - 1) < MWC_CYCLE ∧
      ∃ t, mwc_next_random s = some t ∧
        t.mwc_current_cycle = ((s.mwc_current_cycle + 1) % UINT_MOD) &&& (MWC_CYCLE - 1) ∧
        t.mwc_current_cycle < MWC_CYCLE) ∧
    (∀ s, Reachable rand s →
      s.mwc_current_cycle < MWC_CYCLE ∧ ∃ v, mwc_read_random s = some v) := by
  refine ⟨fun fuel s p h => (mwc_create_post rand fuel s p h).1,
    fun s => ⟨_, mwc_init_eq s, rfl⟩, fun s => ?_, fun s hs => ?_⟩
  · obtain ⟨t, ht, -, -, hcur, hlt⟩ := mwc_next_random_frame s
    rw [cycle_mask]
    exact ⟨Nat.mod_lt _ (by decide), t, ht, hcur, hlt⟩
  · have hlt : s.mwc_current_cycle < MWC_CYCLE := by
      induction hs with
      | create fuel s p h =>
        rw [(mwc_create_post rand fuel s p h).1]; decide
      | init s t _ h _ =>
        rw [mwc_init_eq, Option.some.injEq] at h
        rw [← h]
        show MWC_CYCLE - 1 < MWC_CYCLE
        decide
      | next s t _ h _ =>
        obtain ⟨u, hu, -, -, -, hlt⟩ := mwc_next_random_frame s
        rw [hu, Option.some.injEq] at h
        rw [← h]; exact hlt
    exact ⟨hlt, _, mwc_read_random_of_lt s hlt⟩

/-- C9 on the stream `sample_rand`: the state it creates is reachable, its
cursor is inside the ring and its read is defined; and the advance of a
state whose cursor is the largest `unsigned` value returns cursor 0. -/
theorem cursor_in_range_witness :
    Reachable sample_rand sample_created ∧
    (sample_created.mwc_current_cycle < MWC_CYCLE ∧
      ∃ v, mwc_read_random sample_created = some v) ∧
    ∃ t, mwc_next_random max_cursor_state = some t ∧ t.mwc_current_cycle = 0 :=
  ⟨Reachable.create 3 sample_created 4099 (mwc_create_sample 3 (by decide)),
    (cursor_in_range sample_rand).2.2.2 sample_created
      (Reachable.create 3 sample_created 4099 (mwc_create_sample 3 (by decide))),
    ((cursor_in_range sample_rand).2.2.1 max_cursor_state).2.imp
      fun _ ht => ⟨ht.1, ht.2.1.trans (by decide)⟩⟩

/-! ## C10: the carry at construction -/

/-- C10: on the entropy stream whose draws are all 0, `mwc_create` returns
after one draw for the carry, and the carry of the state it returns is 0
(and below `MWC_C_MAX`); `mwc_init` of that state returns a state whose
carry is 0 too. -/
theorem mwc_create_zero_carry :
    ∃ s p, mwc_create zero_rand 1 = some (s, p) ∧ s.mwc_carry = 0 ∧
      s.mwc_carry < MWC_C_MAX ∧ ∃ t, mwc_init s = some t ∧ t.mwc_carry = 0 := by
  have h : mwc_initial_c zero_rand 1 0 = some (0, 1) := rfl
  refine ⟨_, _, by rw [mwc_create_eq, h]; rfl, rfl, by decide, _, mwc_init_eq _, rfl⟩

/-! ## C11: the number of entropy draws -/

/-- When the draws below `j` are all rejected and the draw at `j` is not,
exactly `j` of the first `j + 1` draws are rejected. -/
theorem rejected_draws_first (rand : Nat → Nat) (j : Nat)
    (hrej : ∀ i, i < j → MWC_C_MAX ≤ rand i) (hacc : rand j < MWC_C_MAX) :
    rejected_draws rand (j + 1) = j := by
  have hbelow : ∀ n, n ≤ j → rejected_draws rand n = n := by
    intro n hn
    induction n with
    | zero => rfl
    | succ k ih =>
      have hk : MWC_C_MAX ≤ rand k := hrej k (by omega)
      have ih1 := ih (by omega)
      unfold rejected_draws at ih1 ⊢
      rw [List.range_succ, List.countP_append, ih1]
      simp [hk]
  have hj := hbelow j (Nat.le_refl j)
  have hacc1 : ¬ MWC_C_MAX ≤ rand j := by omega
  unfold rejected_draws at hj ⊢
  rw [List.range_succ, List.countP_append, hj]
  simp [hacc1]

/-- C11, as amended: whenever `mwc_create` returns, `mwc_initial_c` made
`pc >= 1` draws, of which all but the last were rejected, and `mwc_create`
made `MWC_CYCLE + pc` draws in all: `MWC_CYCLE + r + 1` for `r` the number of
rejected carry candidates. -/
theorem mwc_create_draws (rand : Nat → Nat) (fuel : Nat) (s : mwc_random_t) (p : Nat)
    (h : mwc_create rand fuel = some (s, p)) :
    ∃ pc, mwc_initial_c rand fuel 0 = some (s.mwc_carry, pc) ∧ 1 ≤ pc ∧
      pc = rejected_draws rand pc + 1 ∧ p = MWC_CYCLE + pc ∧
      p = MWC_CYCLE + rejected_draws rand pc + 1 := by
  rw [mwc_create_eq] at h
  cases hc : mwc_initial_c rand fuel 0 with
  | none => simp [hc] at h
  | some cp =>
    obtain ⟨c, p0⟩ := cp
    obtain ⟨j, -, hp, hcj, hlt, hrej⟩ := mwc_initial_c_some rand fuel 0 c p0 hc
    simp only [hc, Option.map_some', Option.some.injEq, Prod.mk.injEq] at h
    obtain ⟨rfl, rfl⟩ := h
    simp only [Nat.zero_add] at hp hcj hrej
    have hcount : rejected_draws rand (j + 1) = j :=
      rejected_draws_first rand j hrej (by rw [← hcj]; exact hlt)
    subst hp
    refine ⟨j + 1, rfl, by omega, by omega, by omega, by omega⟩

/-- C11, as amended, on the stream `sample_rand`: two rejected draws, one
accepted, and `4096 + 3` draws in all. -/
theorem mwc_create_draws_witness :
    mwc_create sample_rand 3 = some (sample_created, 4099) ∧
    ∃ pc, mwc_initial_c sample_rand 3 0 = some (sample_created.mwc_carry, pc) ∧ 1 ≤ pc ∧
      pc = rejected_draws sample_rand pc + 1 ∧ 4099 = MWC_CYCLE + pc ∧
      4099 = MWC_CYCLE + rejected_draws sample_rand pc + 1 :=
  ⟨mwc_create_sample 3 (by decide),
    mwc_create_draws sample_rand 3 sample_created 4099 (mwc_create_sample 3 (by decide))⟩

/-- C11 as stated fails on the stream `sample_rand`: `mwc_initial_c` makes 3
draws of which 2 are rejected, `mwc_create` makes 4099 draws, and 4099 is not
`MWC_CYCLE + 2`. -/
theorem mwc_create_draws_counterexample :
    mwc_create sample_rand 3 = some (sample_created, 4099) ∧
    mwc_initial_c sample_rand 3 0 = some (7, 3) ∧
    rejected_draws sample_rand 3 = 2 ∧
    ¬ (1 ≤ rejected_draws sample_rand 3 ∧
        4099 = MWC_CYCLE + rejected_draws sample_rand 3) := by
  have hr : rejected_draws sample_rand 3 = 2 :=
    rejected_draws_first sample_rand 2
      (by intro i hi; interval_cases i <;> decide) (by decide)
  refine ⟨mwc_create_sample 3 (by decide), rfl, hr, ?_⟩
  rw [hr]
  decide

/-! ## C12: the concrete scenario -/

/-- The pair computed by lines 168 to 175 is the uncorrected pair, with both
components incremented (in 32 bits) exactly when the test of line 172
holds. -/
theorem mwc_multiply_carry_branch (q c : Nat) :
    mwc_multiply_carry q c =
      if (mwc_uncorrected q c).1 < (mwc_uncorrected q c).2
      then (((mwc_uncorrected q c).1 + 1) % U32_MOD, ((mwc_uncorrected q c).2 + 1) % U32_MOD)
      else mwc_uncorrected q c := rfl

/-- What one advance followed by a read observes: the value read, the new
carry and the new cursor. -/
theorem mwc_next_random_observed (s : mwc_random_t) :
    (mwc_next_random s).map (fun t => (mwc_read_random t, t.mwc_carry, t.mwc_current_cycle))
      = some (some ((0xfffffffe + U32_MOD -
            (mwc_multiply_carry (s.mwc_q.get (next_cycle s)) s.mwc_carry).1) % U32_MOD),
          (mwc_multiply_carry (s.mwc_q.get (next_cycle s)) s.mwc_carry).2,
          (s.mwc_current_cycle + 1) % MWC_CYCLE) := by
  rw [mwc_next_random_eq, Option.map_some']
  simp only [mwc_read_random, arr_load_fin, Mathlib.Vector.get_set_same]
  rfl

/-- C12: with cursor 4095 and carry 100, if every ring word is `0xFFFFFFFF`
the advance followed by a read gives 4294967194, the new carry 18782 and the
new cursor 0, the test `x < carry` of the correction holding; if every ring
word is 1 it gives 4294948412, carry 0 and cursor 0, the test failing. -/
theorem concrete_scenario :
    (mwc_next_random sample_state).map
        (fun t => (mwc_read_random t, t.mwc_carry, t.mwc_current_cycle))
      = some (some 4294967194, 18782, 0) ∧
    (mwc_uncorrected 4294967295 100).1 < (mwc_uncorrected 4294967295 100).2 ∧
    (mwc_next_random ones_state).map
        (fun t => (mwc_read_random t, t.mwc_carry, t.mwc_current_cycle))
      = some (some 4294948412, 0, 0) ∧
    ¬ (mwc_uncorrected 1 100).1 < (mwc_uncorrected 1 100).2 := by
  have h1 : sample_state.mwc_q.get (next_cycle sample_state) = 4294967295 :=
    Mathlib.Vector.get_replicate _ _
  have h2 : ones_state.mwc_q.get (next_cycle ones_state) = 1 :=
    Mathlib.Vector.get_replicate _ _
  refine ⟨?_, by decide, ?_, by decide⟩
  · rw [mwc_next_random_observed, h1]
    decide
  · rw [mwc_next_random_observed, h2]
    decide

/-! ## C13: the advance depends on ring, carry and cursor only -/

/-- One advance of two states that agree on ring, carry and cursor gives
two states that agree on ring, carry and cursor. -/
theorem mwc_next_random_agree (s1 s2 : mwc_random_t) (hq : s1.mwc_q = s2.mwc_q)
    (hc : s1.mwc_carry = s2.mwc_carry)
    (hcur : s1.mwc_current_cycle = s2.mwc_current_cycle) :
    ∃ t1 t2, mwc_next_random s1 = some t1 ∧ mwc_next_random s2 = some t2 ∧
      t1.mwc_q = t2.mwc_q ∧ t1.mwc_carry = t2.mwc_carry ∧
      t1.mwc_current_cycle = t2.mwc_current_cycle := by
  have hn : next_cycle s1 = next_cycle s2 := by
    unfold next_cycle
    simp only [hcur]
  refine ⟨_, _, mwc_next_random_eq s1, mwc_next_random_eq s2, ?_, ?_, ?_⟩
  · simp only [hq, hc, hn]
  · simp only [hq, hc, hn]
  · simp only [hn]

/-- C13: `mwc_next_random` takes the state and nothing else (no entropy
stream), and for two states that agree on ring, carry and cursor, whatever
their snapshots, the states after `n` advances exist and agree on ring,
carry and cursor, so `mwc_read_random` returns the same on both. -/
theorem advance_ignores_snapshot (s1 s2 : mwc_random_t) (hq : s1.mwc_q = s2.mwc_q)
    (hc : s1.mwc_carry = s2.mwc_carry)
    (hcur : s1.mwc_current_cycle = s2.mwc_current_cycle) (n : Nat) :
    ∃ t1 t2, mwc_next_random_n n s1 = some t1 ∧ mwc_next_random_n n s2 = some t2 ∧
      t1.mwc_q = t2.mwc_q ∧ t1.mwc_carry = t2.mwc_carry ∧
      t1.mwc_current_cycle = t2.mwc_current_cycle ∧
      mwc_read_random t1 = mwc_read_random t2 := by
  induction n with
  | zero =>
    refine ⟨s1, s2, rfl, rfl, hq, hc, hcur, ?_⟩
    simp only [mwc_read_random, hq, hcur]
  | succ k ih =>
    obtain ⟨t1, t2, h1, h2, hq1, hc1, hcur1, -⟩ := ih
    obtain ⟨u1, u2, g1, g2, hq2, hc2, hcur2⟩ := mwc_next_random_agree t1 t2 hq1 hc1 hcur1
    refine ⟨u1, u2, ?_, ?_, hq2, hc2, hcur2, ?_⟩
    · simp only [mwc_next_random_n, h1, Option.some_bind, g1]
    · simp only [mwc_next_random_n, h2, Option.some_bind, g2]
    · simp only [mwc_read_random, hq2, hcur2]

/-- C13 on `sample_state` and `resnapshot_state`, which differ in their
snapshots only, after 10 advances. -/
theorem advance_ignores_snapshot_witness :
    sample_state.mwc_initial_carry ≠ resnapshot_state.mwc_initial_carry ∧
    ∃ t1 t2, mwc_next_random_n 10 sample_state = some t1 ∧
      mwc_next_random_n 10 resnapshot_state = some t2 ∧
      t1.mwc_q = t2.mwc_q ∧ t1.mwc_carry = t2.mwc_carry ∧
      t1.mwc_current_cycle = t2.mwc_current_cycle ∧
      mwc_read_random t1 = mwc_read_random t2 :=
  ⟨by decide, advance_ignores_snapshot sample_state resnapshot_state rfl rfl rfl 10⟩

/-! ## C16: the exact carry decomposition -/

/-- On 32-bit operands the uncorrected pair is `((lo + hi) mod 2^32, hi)` for
the exact `t = 18782 * q + c`. -/
theorem mwc_uncorrected_exact (q c : Nat) (hq : q < U32_MOD) (hc : c < U32_MOD) :
    mwc_uncorrected q c =
      (((18782 * q + c) % 4294967296 + (18782 * q + c) / 4294967296) % 4294967296,
        (18782 * q + c) / 4294967296) := by
  unfold mwc_uncorrected
  simp only [U32_MOD, U64_MOD, Nat.shiftRight_eq_div_pow] at *
  have e1 : (18782 * q % 18446744073709551616 + c) % 18446744073709551616
      = 18782 * q + c := by omega
  have e2 : (2 : Nat) ^ 32 = 4294967296 := by norm_num
  rw [e1, e2]
  have e3 : (18782 * q + c) / 4294967296 % 4294967296 = (18782 * q + c) / 4294967296 := by
    omega
  rw [e3]

/-- C16: for 32-bit `q` and `c`, with `t = 18782 * q + c`, the pair
`(x, carry)` computed by the advance satisfies `t = carry * (2^32 - 1) + x`
over the natural numbers with `x <= 2^32 - 1`; the test `x < carry` of line
172 holds exactly when `lo + hi >= 2^32`; and when it holds neither `x++` nor
`carry++` wraps, so the pair is the uncorrected one with both components
incremented exactly. -/
theorem carry_decomposition (q c : Nat) (hq : q < U32_MOD) (hc : c < U32_MOD) :
    18782 * q + c
        = (mwc_multiply_carry q c).2 * (2 ^ 32 - 1) + (mwc_multiply_carry q c).1 ∧
    (mwc_multiply_carry q c).1 ≤ 2 ^ 32 - 1 ∧
    ((mwc_uncorrected q c).1 < (mwc_uncorrected q c).2 ↔
      2 ^ 32 ≤ (18782 * q + c) % 2 ^ 32 + (18782 * q + c) / 2 ^ 32) ∧
    ((mwc_uncorrected q c).1 < (mwc_uncorrected q c).2 →
      (mwc_uncorrected q c).1 + 1 < U32_MOD ∧ (mwc_uncorrected q c).2 + 1 < U32_MOD) ∧
    mwc_multiply_carry q c =
      (if (mwc_uncorrected q c).1 < (mwc_uncorrected q c).2
        then ((mwc_uncorrected q c).1 + 1, (mwc_uncorrected q c).2 + 1)
        else mwc_uncorrected q c) := by
  have hu := mwc_uncorrected_exact q c hq hc
  have hm := mwc_multiply_carry_branch q c
  rw [hm, hu]
  simp only [U32_MOD] at hq hc ⊢
  have e2 : (2 : Nat) ^ 32 = 4294967296 := by norm_num
  simp only [e2]
  have hhi : (18782 * q + c) / 4294967296 ≤ 18782 := by omega
  by_cases hb : ((18782 * q + c) % 4294967296 + (18782 * q + c) / 4294967296) % 4294967296
      < (18782 * q + c) / 4294967296
  · have h1 : (((18782 * q + c) % 4294967296 + (18782 * q + c) / 4294967296) % 4294967296
        + 1) % 4294967296
        = ((18782 * q + c) % 4294967296 + (18782 * q + c) / 4294967296) % 4294967296 + 1 := by
      omega
    have h2 : ((18782 * q + c) / 4294967296 + 1) % 4294967296
        = (18782 * q + c) / 4294967296 + 1 := by omega
    simp only [if_pos hb, h1, h2]
    refine ⟨by omega, by omega, ⟨fun _ => by omega, fun _ => hb⟩, fun _ => ⟨by omega, by omega⟩,
      trivial⟩
  · simp only [if_neg hb]
    refine ⟨by omega, by omega, ⟨fun h => absurd h hb, fun h => by omega⟩,
      fun h => absurd h hb, trivial⟩

/-- C16 at `q = 0xFFFFFFFF` and `c = 100`, where the correction is taken:
`t = 18782 * (2^32 - 1) + 100`, `carry = 18782` and `x = 100`. -/
theorem carry_decomposition_witness :
    mwc_multiply_carry 4294967295 100 = (100, 18782) ∧
    18782 * 4294967295 + 100
        = (mwc_multiply_carry 4294967295 100).2 * (2 ^ 32 - 1)
          + (mwc_multiply_carry 4294967295 100).1 ∧
    (mwc_uncorrected 4294967295 100).1 < (mwc_uncorrected 4294967295 100).2 :=
  ⟨by decide, (carry_decomposition 4294967295 100 (by decide) (by decide)).1, by decide⟩

/-! ## C14: the reduction modulo `0xFFFFFFFF` -/

/-- What lines 168 to 175 compute, against division by `0xFFFFFFFF`: on
32-bit operands the pair is `(t mod 0xFFFFFFFF, t div 0xFFFFFFFF)` unless `t`
is a positive multiple of `0xFFFFFFFF`, and then it is
`(0xFFFFFFFF, t div 0xFFFFFFFF - 1)`. -/
theorem mwc_multiply_carry_mod (q c : Nat) (hq : q < U32_MOD) (hc : c < U32_MOD) :
    ((18782 * q + c) % 4294967295 ≠ 0 ∨ 18782 * q + c = 0 →
      mwc_multiply_carry q c
        = ((18782 * q + c) % 4294967295, (18782 * q + c) / 4294967295)) ∧
    ((18782 * q + c) % 4294967295 = 0 → 0 < 18782 * q + c →
      mwc_multiply_carry q c = (4294967295, (18782 * q + c) / 4294967295 - 1)) := by
  rw [mwc_multiply_carry_exact q c hq hc]
  simp only [U32_MOD] at hq hc
  have e2 : (2 : Nat) ^ 32 = 4294967296 := by norm_num
  simp only [e2]
  have hhi : (18782 * q + c) / 4294967296 ≤ 18782 := by omega
  have hdec := Nat.div_add_mod (18782 * q + c) 4294967296
  have hlo := Nat.mod_lt (18782 * q + c) (by norm_num : 0 < 4294967296)
  generalize (18782 * q + c) / 4294967296 = hi at *
  generalize (18782 * q + c) % 4294967296 = lo at *
  generalize 18782 * q + c = T at *
  clear hq hc
  have hdm : ∀ x cy, x + 4294967295 * cy = T → x < 4294967295 →
      T / 4294967295 = cy ∧ T % 4294967295 = x :=
    fun x cy h1 h2 => (Nat.div_mod_unique (by norm_num)).2 ⟨h1, h2⟩
  constructor
  · intro h
    split_ifs with hb
    · obtain ⟨h1, h2⟩ := hdm ((lo + hi) % 4294967296 + 1) (hi + 1)
        (by clear h; omega) (by clear h; omega)
      rw [h1, h2]
    · have hS : lo + hi ≠ 4294967295 := by
        intro hS
        have hT : T = 4294967295 * (hi + 1) := by clear h; omega
        have h0 : T % 4294967295 = 0 := by rw [hT]; exact Nat.mul_mod_right _ _
        have hpos : 0 < T := by clear h h0; omega
        rcases h with h | h
        · exact h h0
        · clear h0; omega
      obtain ⟨h1, h2⟩ := hdm ((lo + hi) % 4294967296) hi
        (by clear h; omega) (by clear h; omega)
      rw [h1, h2]
  · intro h0 hpos
    split_ifs with hb
    · obtain ⟨-, h2⟩ := hdm ((lo + hi) % 4294967296 + 1) (hi + 1)
        (by clear h0; omega) (by clear h0; omega)
      rw [h2] at h0
      omega
    · by_cases hS : lo + hi = 4294967295
      · have hT : T = 4294967295 * (hi + 1) := by clear h0; omega
        have hq : T / 4294967295 = hi + 1 := by
          rw [hT]; exact Nat.mul_div_cancel_left _ (by norm_num)
        have hx : (lo + hi) % 4294967296 = 4294967295 := by clear h0 hq; omega
        rw [hq, hx]
        rfl
      · obtain ⟨-, h2⟩ := hdm ((lo + hi) % 4294967296) hi
          (by clear h0; omega) (by clear h0; omega)
        rw [h2] at h0
        omega

/-- C14: on the stream `edge_rand`, `mwc_create` returns `edge_state` (carry
0, ring words `0xFFFFFFFF`); there `t = 18782 * 0xFFFFFFFF` is a multiple of
`0xFFFFFFFF`, with quotient 18782 and remainder 0, and the advance returns
carry 18781 and stores `0xFFFFFFFF`, not carry 18782 and
`0xFFFFFFFE - 0 = 4294967294`. -/
theorem reduction_differs_at_multiple :
    mwc_create edge_rand 1 = some (edge_state, 4097) ∧
    (mwc_next_random edge_state).map
        (fun t => (mwc_read_random t, t.mwc_carry, t.mwc_current_cycle))
      = some (some 4294967295, 18781, 0) ∧
    mwc_multiply_carry 4294967295 0 = (4294967295, 18781) ∧
    (18782 * 4294967295 + 0) / 0xFFFFFFFF = 18782 ∧
    (18782 * 4294967295 + 0) % 0xFFFFFFFF = 0 ∧
    (0xFFFFFFFE - (18782 * 4294967295 + 0) % 0xFFFFFFFF) % 2 ^ 32 = 4294967294 := by
  have hc : mwc_initial_c edge_rand 1 0 = some (0, 1) := rfl
  have hq : edge_state.mwc_q.get (next_cycle edge_state) = 4294967295 := by
    simp only [edge_state, Mathlib.Vector.get_ofFn]
    decide
  refine ⟨by rw [mwc_create_eq, hc]; rfl, ?_, by decide, by decide, by decide, by decide⟩
  rw [mwc_next_random_observed, hq]
  decide

/-! ## C15: rejection sampling of the initial carry -/

/-- From position 0, with the draw at `j` the first below `MWC_C_MAX`, the
loop of `mwc_initial_c` returns that draw after `j + 1` iterations: any fuel
above `j` gives it, and no fuel up to `j` gives anything. -/
theorem mwc_initial_c_first (rand : Nat → Nat) (j : Nat) (hlt : rand j < MWC_C_MAX)
    (hrej : ∀ i, i < j → MWC_C_MAX ≤ rand i) (fuel : Nat) :
    (j < fuel → mwc_initial_c rand fuel 0 = some (rand j, j + 1)) ∧
    (fuel ≤ j → mwc_initial_c rand fuel 0 = none) := by
  constructor
  · intro hf
    have h := mwc_initial_c_of_first rand j fuel 0 hf (by rw [Nat.zero_add]; exact hlt)
      (by intro i hi; rw [Nat.zero_add]; exact hrej i hi)
    simpa only [Nat.zero_add] using h
  · intro hf
    cases hc : mwc_initial_c rand fuel 0 with
    | none => rfl
    | some cp =>
      obtain ⟨c, p⟩ := cp
      obtain ⟨k, hk, -, hck, hclt, -⟩ := mwc_initial_c_some rand fuel 0 c p hc
      rw [Nat.zero_add] at hck
      have := hrej k (by omega)
      omega

/-- C15: on the stream `rand` read from its start, `mwc_initial_c` returns
(for some fuel) if and only if some draw is below `MWC_C_MAX`; whatever it
returns is the first such draw `d_j`, every earlier draw being
`>= MWC_C_MAX`, and `mwc_create` then returns a state with that carry whose
ring slot `i` is the draw `d_(j+1+i)`; and with `d_j` the first draw below
`MWC_C_MAX` the loop returns for exactly the fuels above `j`. -/
theorem initial_carry_rejection_sampling (rand : Nat → Nat) :
    ((∃ fuel c p, mwc_initial_c rand fuel 0 = some (c, p)) ↔ ∃ j, rand j < MWC_C_MAX) ∧
    (∀ fuel c p, mwc_initial_c rand fuel 0 = some (c, p) →
      ∃ j, j < fuel ∧ c = rand j ∧ p = j + 1 ∧ rand j < MWC_C_MAX ∧
        (∀ i, i < j → MWC_C_MAX ≤ rand i) ∧
        ∃ s, mwc_create rand fuel = some (s, j + 1 + MWC_CYCLE) ∧
          s.mwc_carry = rand j ∧
          ∀ i : Fin MWC_CYCLE, s.mwc_q.get i = rand (j + 1 + i.val)) ∧
    (∀ j, rand j < MWC_C_MAX → (∀ i, i < j → MWC_C_MAX ≤ rand i) →
      ∀ fuel, (j < fuel → mwc_initial_c rand fuel 0 = some (rand j, j + 1)) ∧
        (fuel ≤ j → mwc_initial_c rand fuel 0 = none)) := by
  refine ⟨⟨?_, ?_⟩, ?_, fun j hlt hrej fuel => mwc_initial_c_first rand j hlt hrej fuel⟩
  · rintro ⟨fuel, c, p, h⟩
    obtain ⟨j, -, -, hc, hlt, -⟩ := mwc_initial_c_some rand fuel 0 c p h
    rw [Nat.zero_add] at hc
    exact ⟨j, by rw [← hc]; exact hlt⟩
  · intro hex
    have hfirst := Nat.find_spec hex
    have hrej : ∀ i, i < Nat.find hex → MWC_C_MAX ≤ rand i :=
      fun i hi => Nat.le_of_not_lt (Nat.find_min hex hi)
    exact ⟨Nat.find hex + 1, _, _,
      (mwc_initial_c_first rand _ hfirst hrej _).1 (Nat.lt_succ_self _)⟩
  · intro fuel c p h
    obtain ⟨j, hj, hp, hc, hlt, hrej⟩ := mwc_initial_c_some rand fuel 0 c p h
    simp only [Nat.zero_add] at hp hc hrej
    refine ⟨j, hj, hc, hp, by rw [← hc]; exact hlt, hrej, ?_⟩
    rw [mwc_create_eq, h, Option.map_some']
    subst hp hc
    refine ⟨_, rfl, rfl, fun i => ?_⟩
    simp only [Mathlib.Vector.get_ofFn]

/-- C15 on the stream `sample_rand`, whose first draw below `MWC_C_MAX` is
the third: fuel 3 returns it, fuel 2 does not. -/
theorem initial_carry_rejection_sampling_witness :
    sample_rand 2 < MWC_C_MAX ∧ (∀ i, i < 2 → MWC_C_MAX ≤ sample_rand i) ∧
    mwc_initial_c sample_rand 3 0 = some (sample_rand 2, 2 + 1) ∧
    mwc_initial_c sample_rand 2 0 = none :=
  ⟨by decide, by intro i hi; interval_cases i <;> decide,
    (((initial_carry_rejection_sampling sample_rand).2.2 2 (by decide)
      (by intro i hi; interval_cases i <;> decide)) 3).1 (by decide),
    (((initial_carry_rejection_sampling sample_rand).2.2 2 (by decide)
      (by intro i hi; interval_cases i <;> decide)) 2).2 (by decide)⟩

/-! ## C17: the carry stays bounded -/

/-- On 32-bit operands the carry computed by lines 168 to 175 is at most the
multiplier 18782. -/
theorem mwc_multiply_carry_le (q c : Nat) (hq : q < U32_MOD) (hc : c < U32_MOD) :
    (mwc_multiply_carry q c).2 ≤ 18782 := by
  rw [mwc_multiply_carry_exact q c hq hc]
  simp only [U32_MOD] at hq hc
  have e2 : (2 : Nat) ^ 32 = 4294967296 := by norm_num
  simp only [e2]
  split_ifs with hb
  · simp only
    omega
  · simp only
    omega

/-- The entropy stream `edge_rand` yields 32-bit values, and `mwc_create`
on it returns `edge_state` after `1 + 4096` draws. -/
theorem mwc_create_edge :
    (∀ i, edge_rand i < U32_MOD) ∧ mwc_create edge_rand 1 = some (edge_state, 4097) := by
  have hc : mwc_initial_c edge_rand 1 0 = some (0, 1) := rfl
  refine ⟨fun i => ?_, by rw [mwc_create_eq, hc]; rfl⟩
  unfold edge_rand
  split_ifs <;> decide

/-- On a stream of 32-bit draws every reachable state has 32-bit ring and
snapshot words, and a carry and a snapshot carry below `MWC_C_MAX`. -/
theorem reachable_bounds (rand : Nat → Nat) (hrand : ∀ i, rand i < U32_MOD)
    (s : mwc_random_t) (hs : Reachable rand s) :
    (∀ i, s.mwc_q.get i < U32_MOD) ∧ s.mwc_carry < MWC_C_MAX ∧
      s.mwc_initial_carry < MWC_C_MAX ∧ (∀ i, s.mwc_initial_q.get i < U32_MOD) := by
  induction hs with
  | create fuel s p h =>
    obtain ⟨-, -, hc, hlt⟩ := mwc_create_post rand fuel s p h
    rw [mwc_create_eq] at h
    cases hi : mwc_initial_c rand fuel 0 with
    | none => simp [hi] at h
    | some cp =>
      simp only [hi, Option.map_some', Option.some.injEq, Prod.mk.injEq] at h
      obtain ⟨rfl, -⟩ := h
      refine ⟨fun i => ?_, hlt, hlt, fun i => ?_⟩ <;>
        simp only [Mathlib.Vector.get_ofFn] <;> exact hrand _
  | init s t _ h ih =>
    rw [mwc_init_eq, Option.some.injEq] at h
    subst h
    exact ⟨ih.2.2.2, ih.2.2.1, ih.2.2.1, ih.2.2.2⟩
  | next s t _ h ih =>
    rw [mwc_next_random_eq, Option.some.injEq] at h
    subst h
    obtain ⟨hq, hc, hic, hiq⟩ := ih
    have hc32 : s.mwc_carry < U32_MOD := by
      have h1 : MWC_C_MAX < U32_MOD := by decide
      omega
    have hle := mwc_multiply_carry_le _ _ (hq (next_cycle s)) hc32
    refine ⟨fun i => ?_, ?_, hic, hiq⟩
    · simp only [Mathlib.Vector.get_set_eq_if]
      split_ifs
      · exact Nat.mod_lt _ (by decide)
      · exact hq i
    · have h1 : 18782 < MWC_C_MAX := by decide
      simp only
      omega

/-- C17: for every state with 32-bit ring words and carry,
`mwc_next_random` returns a state whose carry is at most 18782; hence, on an
entropy stream of 32-bit draws, every state reachable from `mwc_create`
through `mwc_init` and `mwc_next_random` has its carry below
`MWC_C_MAX`. -/
theorem carry_bounded (rand : Nat → Nat) (hrand : ∀ i, rand i < U32_MOD) :
    (∀ s, Representable s → ∃ t, mwc_next_random s = some t ∧ t.mwc_carry ≤ 18782) ∧
    (∀ s, Reachable rand s → s.mwc_carry < MWC_C_MAX) :=
  ⟨fun s hs => ⟨_, mwc_next_random_eq s, mwc_multiply_carry_le _ _ (hs.1 _) hs.2.1⟩,
    fun s hs => (reachable_bounds rand hrand s hs).2.1⟩

/-- C17 on the stream `edge_rand`: the advance of `sample_state` (carry 100)
returns carry at most 18782, and the state created from `edge_rand` is
reachable and has its carry below `MWC_C_MAX`. -/
theorem carry_bounded_witness :
    (∀ i, edge_rand i < U32_MOD) ∧
    (∃ t, mwc_next_random sample_state = some t ∧ t.mwc_carry ≤ 18782) ∧
    Reachable edge_rand edge_state ∧ edge_state.mwc_carry < MWC_C_MAX :=
  ⟨mwc_create_edge.1,
    (carry_bounded edge_rand mwc_create_edge.1).1 sample_state sample_state_representable,
    Reachable.create 1 edge_state 4097 mwc_create_edge.2,
    (carry_bounded edge_rand mwc_create_edge.1).2 edge_state
      (Reachable.create 1 edge_state 4097 mwc_create_edge.2)⟩

/-! ## Runs of advances -/

/-- Advancing `a + b` times is advancing `a` times and then `b` times. -/
theorem mwc_next_random_n_add (a b : Nat) (s : mwc_random_t) :
    mwc_next_random_n (a + b) s = (mwc_next_random_n a s).bind (mwc_next_random_n b) := by
  induction b with
  | zero =>
    show mwc_next_random_n a s = _
    cases mwc_next_random_n a s <;> rfl
  | succ k ih =>
    show (mwc_next_random_n (a + k) s).bind mwc_next_random = _
    rw [ih]
    cases mwc_next_random_n a s <;> rfl

theorem cycle_succ (c k : Nat) :
    ((c + k) % MWC_CYCLE + 1) % MWC_CYCLE = (c + (k + 1)) % MWC_CYCLE := by
  unfold MWC_CYCLE
  omega

theorem cycle_lag (c i : Nat) (h1 : 1 ≤ i) (h2 : i ≤ 4095) :
    (c + i) % MWC_CYCLE ≠ c := by
  unfold MWC_CYCLE at *
  omega

theorem cycle_wrap (c : Nat) (hc : c < MWC_CYCLE) :
    ((c + 4095) % MWC_CYCLE + 1) % MWC_CYCLE = c := by
  unfold MWC_CYCLE at *
  omega

/-- The slot an advance writes, the word it stores there, the carry it
leaves, and what it keeps. -/
theorem mwc_next_random_slot (v : mwc_random_t) :
    ∃ w, mwc_next_random v = some w ∧
      w.mwc_current_cycle = (next_cycle v).val ∧
      w.mwc_q.get (next_cycle v) = (0xfffffffe + U32_MOD -
        (mwc_multiply_carry (v.mwc_q.get (next_cycle v)) v.mwc_carry).1) % U32_MOD ∧
      w.mwc_carry = (mwc_multiply_carry (v.mwc_q.get (next_cycle v)) v.mwc_carry).2 ∧
      w.mwc_initial_q = v.mwc_initial_q ∧
      ∀ j, next_cycle v ≠ j → w.mwc_q.get j = v.mwc_q.get j :=
  ⟨_, mwc_next_random_eq v, rfl, Mathlib.Vector.get_set_same _ _ _, rfl, rfl,
    fun _ hne => Mathlib.Vector.get_set_of_ne hne _⟩

/-- From a cursor inside the ring, `k` advances return a state whose cursor
has moved `k` places round the ring and whose ring still holds, at every
slot the cursor did not stop on, the word it held before. -/
theorem mwc_next_random_n_window (k : Nat) (u : mwc_random_t)
    (hu : u.mwc_current_cycle < MWC_CYCLE) :
    ∃ v, mwc_next_random_n k u = some v ∧
      v.mwc_current_cycle = (u.mwc_current_cycle + k) % MWC_CYCLE ∧
      v.mwc_initial_q = u.mwc_initial_q ∧
      ∀ j : Fin MWC_CYCLE,
        (∀ i, 1 ≤ i → i ≤ k → (u.mwc_current_cycle + i) % MWC_CYCLE ≠ j.val) →
        v.mwc_q.get j = u.mwc_q.get j := by
  induction k with
  | zero =>
    exact ⟨u, rfl, (Nat.mod_eq_of_lt hu).symm, rfl, fun _ _ => rfl⟩
  | succ n ih =>
    obtain ⟨v, hv, hcur, hiq, hframe⟩ := ih
    obtain ⟨w, hw, hwcur, -, -, hwiq, hwframe⟩ := mwc_next_random_slot v
    have hnext : (next_cycle v).val = (u.mwc_current_cycle + (n + 1)) % MWC_CYCLE := by
      show (v.mwc_current_cycle + 1) % MWC_CYCLE = _
      rw [hcur, cycle_succ]
    refine ⟨w, ?_, hwcur.trans hnext, hwiq.trans hiq, ?_⟩
    · show (mwc_next_random_n n u).bind mwc_next_random = _
      rw [hv, Option.some_bind, hw]
    · intro j hj
      have hne : next_cycle v ≠ j := by
        intro e
        exact hj (n + 1) (by omega) (Nat.le_refl _) (by rw [← hnext, e])
      rw [hwframe j hne]
      exact hframe j fun i h1 h2 => hj i h1 (by omega)

/-! ## C18: the lag-4096 recurrence -/

/-- C18: for every state `s` with its cursor inside the ring and every `n`,
the states `s_n`, `s_(n+4095)` and `s_(n+4096)` after that many advances
exist; the value read from `s_(n+4096)` is the single-step output
`(m - x) mod 2^32` computed from the value `q` read from `s_n` and the carry
of `s_(n+4095)`, its carry is the carry of that step, and its cursor is the
cursor of `s_n`. -/
theorem lag_recurrence (s : mwc_random_t) (h : s.mwc_current_cycle < MWC_CYCLE) (n : Nat) :
    ∃ sn sp sq q, mwc_next_random_n n s = some sn ∧
      mwc_next_random_n (n + 4095) s = some sp ∧
      mwc_next_random_n (n + 4096) s = some sq ∧
      mwc_read_random sn = some q ∧
      mwc_read_random sq = some ((0xfffffffe + U32_MOD -
        (mwc_multiply_carry q sp.mwc_carry).1) % U32_MOD) ∧
      sq.mwc_carry = (mwc_multiply_carry q sp.mwc_carry).2 ∧
      sq.mwc_current_cycle = sn.mwc_current_cycle := by
  obtain ⟨sn, hsn, hcn, -, -⟩ := mwc_next_random_n_window n s h
  have hlt : sn.mwc_current_cycle < MWC_CYCLE := by
    rw [hcn]; exact Nat.mod_lt _ (by decide)
  obtain ⟨sp, hsp, hcp, -, hframe⟩ := mwc_next_random_n_window 4095 sn hlt
  obtain ⟨sq, hsq, hcq, hslot, hcarry, -, -⟩ := mwc_next_random_slot sp
  have hidx : next_cycle sp = ⟨sn.mwc_current_cycle, hlt⟩ := by
    apply Fin.ext
    show (sp.mwc_current_cycle + 1) % MWC_CYCLE = sn.mwc_current_cycle
    rw [hcp, cycle_wrap _ hlt]
  have hkeep : sp.mwc_q.get ⟨sn.mwc_current_cycle, hlt⟩
      = sn.mwc_q.get ⟨sn.mwc_current_cycle, hlt⟩ :=
    hframe _ fun i h1 h2 => cycle_lag _ i h1 h2
  rw [hidx] at hslot hcarry hcq
  rw [hkeep] at hslot hcarry
  have hsp1 : mwc_next_random_n (n + 4095) s = some sp := by
    rw [mwc_next_random_n_add, hsn, Option.some_bind, hsp]
  have hsq1 : mwc_next_random_n (n + 4096) s = some sq := by
    show (mwc_next_random_n (n + 4095) s).bind mwc_next_random = _
    rw [hsp1, Option.some_bind, hsq]
  have hltq : sq.mwc_current_cycle < MWC_CYCLE := by rw [hcq]; exact hlt
  refine ⟨sn, sp, sq, _, hsn, hsp1, hsq1, mwc_read_random_of_lt sn hlt, ?_, hcarry, hcq⟩
  have e : (⟨sq.mwc_current_cycle, hltq⟩ : Fin MWC_CYCLE) = ⟨sn.mwc_current_cycle, hlt⟩ :=
    Fin.ext hcq
  rw [mwc_read_random_of_lt sq hltq, e, hslot]

/-- C18 at `sample_state`, whose cursor is 4095, with `n = 3`. -/
theorem lag_recurrence_witness :
    sample_state.mwc_current_cycle < MWC_CYCLE ∧
    ∃ sn sp sq q, mwc_next_random_n 3 sample_state = some sn ∧
      mwc_next_random_n (3 + 4095) sample_state = some sp ∧
      mwc_next_random_n (3 + 4096) sample_state = some sq ∧
      mwc_read_random sn = some q ∧
      mwc_read_random sq = some ((0xfffffffe + U32_MOD -
        (mwc_multiply_carry q sp.mwc_carry).1) % U32_MOD) ∧
      sq.mwc_carry = (mwc_multiply_carry q sp.mwc_carry).2 ∧
      sq.mwc_current_cycle = sn.mwc_current_cycle :=
  ⟨by decide, lag_recurrence sample_state (by decide) 3⟩

/-! ## C19: the seed words are consumed in order -/

/-- C19: for every state `s` and every `k` from 0 to 4095, after
`mwc_init s` and `k` advances every ring slot `j >= k` still holds the
snapshot word `initial_q[j]` and the cursor is `(4095 + k) mod 4096`; the
read of `mwc_init s` is the seed word `initial_q[4095]`; and the next
advance, the `(k+1)`-th, takes `initial_q[k]` as its multiplier input: it
stores in slot `k` the output computed from `initial_q[k]` and the carry
before it, leaves the carry of that step and the cursor `k`. -/
theorem seed_consumption (s : mwc_random_t) (k : Fin MWC_CYCLE) :
    ∃ r t u, mwc_init s = some r ∧ mwc_next_random_n k.val r = some t ∧
      mwc_next_random_n (k.val + 1) r = some u ∧
      (∀ j : Fin MWC_CYCLE, k.val ≤ j.val → t.mwc_q.get j = s.mwc_initial_q.get j) ∧
      t.mwc_current_cycle = (4095 + k.val) % 4096 ∧
      mwc_read_random r = some (s.mwc_initial_q.get ⟨4095, by decide⟩) ∧
      u.mwc_q.get k = (0xfffffffe + U32_MOD -
        (mwc_multiply_carry (s.mwc_initial_q.get k) t.mwc_carry).1) % U32_MOD ∧
      u.mwc_carry = (mwc_multiply_carry (s.mwc_initial_q.get k) t.mwc_carry).2 ∧
      u.mwc_current_cycle = k.val := by
  obtain ⟨r, hr, hrq, -, hrcur, -, -, -⟩ := mwc_init_post s
  have hrlt : r.mwc_current_cycle < MWC_CYCLE := by rw [hrcur]; decide
  obtain ⟨t, ht, htcur, -, hframe⟩ := mwc_next_random_n_window k.val r hrlt
  obtain ⟨u, hu, hucur, hslot, hcarry, -, -⟩ := mwc_next_random_slot t
  have hk : k.val < 4096 := k.isLt
  have htcur1 : t.mwc_current_cycle = (4095 + k.val) % 4096 := by
    rw [htcur, hrcur]; rfl
  have hidx : next_cycle t = k := by
    apply Fin.ext
    show (t.mwc_current_cycle + 1) % 4096 = k.val
    rw [htcur1]
    omega
  have hkeep : ∀ j : Fin MWC_CYCLE, k.val ≤ j.val → t.mwc_q.get j = s.mwc_initial_q.get j := by
    intro j hj
    rw [hframe j, hrq j]
    intro i h1 h2
    rw [hrcur]
    show (4095 + i) % 4096 ≠ j.val
    omega
  rw [hidx] at hslot hcarry hucur
  rw [hkeep k (Nat.le_refl _)] at hslot hcarry
  refine ⟨r, t, u, hr, ht, ?_, hkeep, htcur1, ?_, hslot, hcarry, hucur⟩
  · show (mwc_next_random_n k.val r).bind mwc_next_random = _
    rw [ht, Option.some_bind, hu]
  · have e : (⟨r.mwc_current_cycle, hrlt⟩ : Fin MWC_CYCLE) = ⟨4095, by decide⟩ :=
      Fin.ext hrcur
    rw [mwc_read_random_of_lt r hrlt, e, hrq]

end MWC
